import Mathlib

/-!
Shallow embedding of the 1brc aggregation core (src/rust/src/lib.rs) and
verification of its specification.  Buffers and byte slices are lists of
byte values (as Nat); machine integers are modeled as Int/Nat with explicit
wrapping where the Rust types (i16, i32, u32) can overflow.  A Rust panic
(Option::unwrap) and the undefined behavior of the unchecked variant are
both modeled as the none result.
-/

/-- Wrap an integer into the i16 range, modeling Rust release-mode i16
arithmetic. -/
def wrap16 (n : Int) : Int := (n + 32768) % 65536 - 32768

/-- Wrap an integer into the i32 range, modeling Rust release-mode i32
arithmetic. -/
def wrap32 (n : Int) : Int := (n + 2147483648) % 4294967296 - 2147483648

/-- Per-key statistics record (lib.rs 21-34): minimum*10 and maximum*10 as
i16, sum*10 as i32, count as u32. -/
structure CityDetails where
  min : Int
  max : Int
  sum : Int
  count : Nat
deriving DecidableEq

/-- The Default instance for CityDetails (lib.rs 36-45): sentinel values
i16::MAX, i16::MIN, 0, 0. -/
def CityDetails.default : CityDetails := ⟨32767, -32768, 0, 0⟩

/-- CityDetails::update (lib.rs 60-69). -/
def CityDetails.update (d : CityDetails) (meas : Int) : CityDetails :=
  { min := if d.min > meas then meas else d.min
    max := if d.max < meas then meas else d.max
    sum := wrap32 (d.sum + meas)
    count := (d.count + 1) % 4294967296 }

/-- ASCII digit test, the b'0'..=b'9' range pattern. -/
def isDig (b : Nat) : Bool := decide (48 ≤ b) && decide (b ≤ 57)

/-- parse_digits (lib.rs 104-122): one pass over the bytes with an i16
accumulator; a digit folds into the accumulator, a '-' byte (45) sets the
multiplier to -1, '.' (46) and every other byte are skipped. -/
def parse_digits (bytes : List Nat) : Int :=
  let st := bytes.foldl
    (fun (p : Int × Int) byte =>
      if isDig byte then (p.1, wrap16 (p.2 * 10 + ((byte : Int) - 48)))
      else if byte = 45 then (-1, p.2)
      else p)
    (1, 0)
  wrap16 (st.1 * st.2)

/-- memchr::memchr on the remaining buffer, returning the parts strictly
before and strictly after the first occurrence of the byte (the index i of
the Rust call is the length of the first part). -/
def memchr (c : Nat) : List Nat → Option (List Nat × List Nat)
  | [] => none
  | b :: bs =>
    if b = c then some ([], bs)
    else (memchr c bs).map fun p => (b :: p.1, p.2)

/-- One aggregation step, map.entry(city).or_default().update(meas)
(lib.rs 150), with the hash map modeled as an association list (iteration
order is irrelevant after the final sort). -/
def observe : List (List Nat × CityDetails) → List Nat → Int → List (List Nat × CityDetails)
  | [], k, v => [(k, CityDetails.default.update v)]
  | (k', d) :: rest, k, v =>
    if k' = k then (k', d.update v) :: rest else (k', d) :: observe rest k v

/-- Byte-lexicographic strict order on byte slices, the order induced by
a.0.cmp(b.0) in the sort call (lib.rs 154). -/
def lexLt : List Nat → List Nat → Bool
  | [], [] => false
  | [], _ :: _ => true
  | _ :: _, [] => false
  | x :: xs, y :: ys => if x < y then true else if y < x then false else lexLt xs ys

/-- The nonstrict key order used for sorting the drained map. -/
def keyLe (p q : List Nat × CityDetails) : Prop := lexLt q.1 p.1 = false

instance : DecidableRel keyLe :=
  fun p q => inferInstanceAs (Decidable (lexLt q.1 p.1 = false))

/-- map.into_iter().collect followed by sort_unstable_by on the keys
(lib.rs 153-155); on the duplicate-free keys produced by the map the result
is the same for every comparison sort. -/
def sortPairs (m : List (List Nat × CityDetails)) : List (List Nat × CityDetails) :=
  List.insertionSort keyLe m

/-- The read_mmap main loop (lib.rs 141-151): while bytes remain, find the
field delimiter and the line delimiter with memchr (a failed lookup, which
the Rust code unwraps, yields none), parse the numeric field and update the
map.  The fuel argument bounds the iteration count; it is instantiated with
the buffer length, which suffices because every iteration consumes at least
one byte. -/
def runLoop : Nat → List Nat → List (List Nat × CityDetails) → Option (List (List Nat × CityDetails))
  | _, [], m => some m
  | 0, _ :: _, _ => none
  | fuel + 1, buf@(_ :: _), m =>
    match memchr 59 buf with
    | none => none
    | some (city, rest1) =>
      match memchr 10 rest1 with
      | none => none
      | some (numeric, rest2) => runLoop fuel rest2 (observe m city (parse_digits numeric))

/-- read_mmap (lib.rs 134-156): scan-and-aggregate loop, then drain the map
into a vector and sort it by key. -/
def read_mmap (b : List Nat) : Option (List (List Nat × CityDetails)) :=
  (runLoop b.length b []).map sortPairs

/-- The read_mmap_unsafe main loop (lib.rs 170-181): identical control flow,
with get_unchecked slicing and unwrap_unchecked; the undefined behavior a
failed delimiter lookup would invoke is modeled as none. -/
def runLoopUnsafe : Nat → List Nat → List (List Nat × CityDetails) → Option (List (List Nat × CityDetails))
  | _, [], m => some m
  | 0, _ :: _, _ => none
  | fuel + 1, buf@(_ :: _), m =>
    match memchr 59 buf with
    | none => none
    | some (city, rest1) =>
      match memchr 10 rest1 with
      | none => none
      | some (numeric, rest2) => runLoopUnsafe fuel rest2 (observe m city (parse_digits numeric))

/-- read_mmap_unsafe (lib.rs 163-187). -/
def read_mmap_unsafe (b : List Nat) : Option (List (List Nat × CityDetails)) :=
  (runLoopUnsafe b.length b []).map sortPairs

/-- The scanning phase of the loop viewed on its own: the list of
(city bytes, parsed measurement) records the loop feeds to the map, in
buffer order.  Related to runLoop by the fission lemma below. -/
def scanLoop : Nat → List Nat → Option (List (List Nat × Int))
  | _, [] => some []
  | 0, _ :: _ => none
  | fuel + 1, buf@(_ :: _) =>
    match memchr 59 buf with
    | none => none
    | some (city, rest1) =>
      match memchr 10 rest1 with
      | none => none
      | some (numeric, rest2) =>
        match scanLoop fuel rest2 with
        | none => none
        | some ps => some ((city, parse_digits numeric) :: ps)

/-- Aggregation of an explicit record sequence into the per-key table,
starting from the empty map (the loop body of read_mmap, factored over the
scanned records). -/
def aggregate (ps : List (List Nat × Int)) : List (List Nat × CityDetails) :=
  ps.foldl (fun m p => observe m p.1 p.2) []

/-- The statistics record produced by a finite sequence of updates starting
from the sentinel defaults. -/
def foldRecord (vs : List Int) : CityDetails :=
  vs.foldl CityDetails.update CityDetails.default

/-- The scaled values carried by the records of a given key, in order. -/
def valsFor (k : List Nat) (l : List (List Nat × Int)) : List Int :=
  l.filterMap fun p => if p.1 = k then some p.2 else none

/-- One aggregation step on an optional record: absent records start from
the sentinel defaults. -/
def obsOpt (o : Option CityDetails) (v : Int) : Option CityDetails :=
  some ((o.getD CityDetails.default).update v)

/-- Key lookup in the aggregation table, the read side of the hash map
(same key equality as observe). -/
def lookupKey (k : List Nat) : List (List Nat × CityDetails) → Option CityDetails
  | [] => none
  | (k', d) :: rest => if k' = k then some d else lookupKey k rest

/-- The wrapped digit fold that parse_digits performs on the digit bytes it
keeps. -/
def foldDigitsW (ds : List Nat) : Int :=
  ds.foldl (fun (a : Int) (d : Nat) => wrap16 (a * 10 + ((d : Int) - 48))) 0

/-- The exact (unwrapped) digit fold from a given accumulator. -/
def digitsValInt (a : Int) (ds : List Nat) : Int :=
  ds.foldl (fun (x : Int) (d : Nat) => x * 10 + ((d : Int) - 48)) a

/-- The exact natural-number value of a digit string. -/
def digitsValNat (ds : List Nat) : Nat :=
  ds.foldl (fun a d => a * 10 + (d - 48)) 0

/-- Recognizer for the tail of the documented numeric format after its first
digit: zero or more further digits, then '.' and exactly one digit. -/
def numMagTail : List Nat → Bool
  | [] => false
  | [_] => false
  | [x, d] => if x = 46 then isDig d else false
  | b :: rest => isDig b && numMagTail rest

/-- Recognizer for an unsigned value of the documented numeric format: one
or more digits, '.', exactly one digit. -/
def numMag : List Nat → Bool
  | [] => false
  | b :: rest => isDig b && numMagTail rest

/-- Recognizer for the documented numeric format: optional leading '-', one
or more digits, '.', exactly one digit. -/
def numericFormat : List Nat → Bool
  | [] => false
  | b :: rest => if b = 45 then numMag rest else numMag (b :: rest)

/-- The exact rational value denoted by an unsigned numeric field of the
documented format: the digits before the '.' as integer part, the single
digit after it as tenths. -/
def magVal (l : List Nat) : ℚ :=
  match memchr 46 l with
  | some (ds, [d]) => (digitsValNat ds : ℚ) + ((d : ℚ) - 48) / 10
  | _ => 0

/-- The exact rational value denoted by a numeric field of the documented
format, sign included. -/
def ratVal : List Nat → ℚ
  | [] => 0
  | b :: rest => if b = 45 then -magVal rest else magVal (b :: rest)

/-- One well-formed input line, per the documented input format: a key free
of the field delimiter ';' (59) and the line delimiter (10), and a numeric
field of the documented format. -/
def lineOk (l : List Nat × List Nat) : Prop :=
  59 ∉ l.1 ∧ 10 ∉ l.1 ∧ numericFormat l.2 = true

instance (l : List Nat × List Nat) : Decidable (lineOk l) :=
  inferInstanceAs (Decidable (_ ∧ _ ∧ _))

/-- A well-formed input buffer, per the documented input format: a
concatenation of newline-terminated key;value lines. -/
def wellFormed (b : List Nat) : Prop :=
  ∃ ls : List (List Nat × List Nat),
    b = (ls.map fun l => l.1 ++ 59 :: l.2 ++ [10]).flatten ∧ ∀ l ∈ ls, lineOk l

/-- Decimal digit bytes of a natural number, most significant first; the
fuel argument bounds the division depth. -/
def natDigitsGo : Nat → Nat → List Nat
  | 0, _ => []
  | fuel + 1, n => if n = 0 then [] else natDigitsGo fuel (n / 10) ++ [48 + n % 10]

/-- Decimal digit bytes of a natural number. -/
def natDigits (n : Nat) : List Nat :=
  if n = 0 then [48] else natDigitsGo (n + 1) n

/-- Round half to even to the nearest integer, the rounding used by the Rust
formatter at a given precision. -/
def rhe (q : ℚ) : Int :=
  if q - Rat.floor q < 1 / 2 then Rat.floor q
  else if 1 / 2 < q - Rat.floor q then Rat.floor q + 1
  else if Rat.floor q % 2 = 0 then Rat.floor q else Rat.floor q + 1

/-- Byte rendering of a rational with one decimal place, the fixed-precision
formatting of the Rust Display implementation (the intermediate IEEE-754
double and its signed zero are not modeled; the divisions are exact). -/
def fmt1 (q : ℚ) : List Nat :=
  (if rhe (q * 10) < 0 then [45] else []) ++
    natDigits ((rhe (q * 10)).natAbs / 10) ++ 46 :: natDigits ((rhe (q * 10)).natAbs % 10)

/-- Display for CityDetails (lib.rs 47-57): minimum, mean and maximum, each
with one decimal place, separated by '/' (47). -/
def fmtCity (d : CityDetails) : List Nat :=
  fmt1 ((d.min : ℚ) / 10) ++ 47 :: fmt1 ((d.sum : ℚ) / (d.count : ℚ) / 10) ++ 47 :: fmt1 ((d.max : ℚ) / 10)

/-- One printed entry: city bytes, '=' (61), formatted details. -/
def entryBytes (p : List Nat × CityDetails) : List Nat :=
  p.1 ++ 61 :: fmtCity p.2

/-- print (lib.rs 189-200): opening brace (123), the first entry with no
separator, every further entry preceded by comma-space (44, 32), closing
brace (125).  The newline appended by println! is the line terminator, not
part of the block. -/
def printOut (l : List (List Nat × CityDetails)) : List Nat :=
  123 ::
    (match l with
      | [] => []
      | p :: rest => entryBytes p ++ rest.foldl (fun acc q => acc ++ 44 :: 32 :: entryBytes q) [])
    ++ [125]

/-- The output layout in the spec's words: entries joined by comma-and-space
with no trailing delimiter. -/
def specSepConcat : List (List Nat) → List Nat
  | [] => []
  | [x] => x
  | x :: y :: rest => x ++ 44 :: 32 :: specSepConcat (y :: rest)

/-! ### Arithmetic lemmas about the wrapping operations -/

theorem wrap16_id {x : Int} (h1 : -32768 ≤ x) (h2 : x ≤ 32767) : wrap16 x = x := by
  unfold wrap16
  omega

theorem wrap32_id {x : Int} (h1 : -2147483648 ≤ x) (h2 : x ≤ 2147483647) : wrap32 x = x := by
  unfold wrap32
  omega

theorem wrap32_add_right (x y : Int) : wrap32 (wrap32 x + y) = wrap32 (x + y) := by
  unfold wrap32
  omega

/-! ### memchr lemmas -/

theorem memchr_eq {c : Nat} : ∀ {l pre post : List Nat},
    memchr c l = some (pre, post) → l = pre ++ c :: post ∧ c ∉ pre := by
  intro l
  induction l with
  | nil => intro pre post h; simp [memchr] at h
  | cons b bs ih =>
    intro pre post h
    by_cases hb : b = c
    · subst hb
      simp [memchr] at h
      obtain ⟨h1, h2⟩ := h
      subst h1; subst h2
      simp
    · rw [memchr, if_neg hb] at h
      cases hm : memchr c bs with
      | none => rw [hm] at h; simp at h
      | some p =>
        rw [hm, Option.map_some'] at h
        injection h with h
        have h1 : b :: p.1 = pre := congrArg Prod.fst h
        have h2 : p.2 = post := congrArg Prod.snd h
        subst h1; subst h2
        obtain ⟨hl, hc⟩ := ih hm
        constructor
        · rw [hl]; rfl
        · intro hmem
          rcases List.mem_cons.mp hmem with h' | h'
          · exact hb h'.symm
          · exact hc h'

theorem memchr_none {c : Nat} : ∀ {l : List Nat}, memchr c l = none ↔ c ∉ l := by
  intro l
  induction l with
  | nil => simp [memchr]
  | cons b bs ih =>
    by_cases hb : b = c
    · subst hb; simp [memchr]
    · rw [memchr, if_neg hb, Option.map_eq_none', ih]
      constructor
      · intro h hmem
        rcases List.mem_cons.mp hmem with h' | h'
        · exact hb h'.symm
        · exact h h'
      · intro h
        exact fun hm => h (List.mem_cons_of_mem b hm)

theorem memchr_append {c : Nat} : ∀ {pre : List Nat} (post : List Nat), c ∉ pre →
    memchr c (pre ++ c :: post) = some (pre, post) := by
  intro pre
  induction pre with
  | nil => intro post _; simp [memchr]
  | cons b bs ih =>
    intro post h
    simp only [List.mem_cons, not_or] at h
    obtain ⟨h1, h2⟩ := h
    have hbc : ¬b = c := fun hh => h1 hh.symm
    rw [List.cons_append, memchr, if_neg hbc, ih post h2, Option.map_some']

/-! ### parse_digits structure -/

theorem parse_state : ∀ (bs : List Nat) (m a : Int),
    bs.foldl
      (fun (p : Int × Int) byte =>
        if isDig byte then (p.1, wrap16 (p.2 * 10 + ((byte : Int) - 48)))
        else if byte = 45 then (-1, p.2)
        else p)
      (m, a) =
    ((if 45 ∈ bs then -1 else m),
      (bs.filter isDig).foldl (fun (x : Int) (d : Nat) => wrap16 (x * 10 + ((d : Int) - 48))) a) := by
  intro bs
  induction bs with
  | nil => intro m a; simp
  | cons b t ih =>
    intro m a
    by_cases hd : isDig b
    · have hb45 : b ≠ 45 := by
        intro h; subst h; simp [isDig] at hd
      rw [List.foldl_cons, List.filter_cons_of_pos hd]
      simp only [hd, if_true]
      rw [ih]
      have h45 : ¬(45 : Nat) = b := fun h => hb45 h.symm
      simp [List.mem_cons, h45]
    · by_cases hb : b = 45
      · subst hb
        rw [List.foldl_cons, List.filter_cons_of_neg hd]
        simp only [hd, if_false, if_pos rfl]
        rw [ih]
        simp
      · rw [List.foldl_cons, List.filter_cons_of_neg hd]
        simp only [hd, if_false, if_neg hb]
        rw [ih]
        have h45 : ¬(45 : Nat) = b := fun h => hb h.symm
        simp [List.mem_cons, h45]

theorem parse_digits_decomp (bs : List Nat) :
    parse_digits bs = wrap16 ((if 45 ∈ bs then -1 else 1) * foldDigitsW (bs.filter isDig)) := by
  unfold parse_digits foldDigitsW
  rw [parse_state]

/-! ### Exact digit folding -/

theorem isDig_iff {b : Nat} : isDig b = true ↔ 48 ≤ b ∧ b ≤ 57 := by
  simp [isDig]

theorem digitsValInt_mono : ∀ (ds : List Nat) (a : Int),
    (∀ d ∈ ds, isDig d = true) → 0 ≤ a → a ≤ digitsValInt a ds := by
  intro ds
  induction ds with
  | nil => intro a _ _; simp [digitsValInt]
  | cons d t ih =>
    intro a hdig ha
    have hd : 48 ≤ d ∧ d ≤ 57 := isDig_iff.mp (hdig d (List.mem_cons_self d t))
    have hd48 : (48 : Int) ≤ (d : Int) := by exact_mod_cast hd.1
    have hstep : a ≤ a * 10 + ((d : Int) - 48) := by nlinarith
    have hpos : 0 ≤ a * 10 + ((d : Int) - 48) := by nlinarith
    have := ih (a * 10 + ((d : Int) - 48)) (fun x hx => hdig x (List.mem_cons_of_mem d hx)) hpos
    calc a ≤ a * 10 + ((d : Int) - 48) := hstep
    _ ≤ digitsValInt (a * 10 + ((d : Int) - 48)) t := this
    _ = digitsValInt a (d :: t) := rfl

theorem foldW_exact : ∀ (ds : List Nat) (a : Int),
    (∀ d ∈ ds, isDig d = true) → 0 ≤ a → digitsValInt a ds ≤ 32767 →
    ds.foldl (fun (x : Int) (d : Nat) => wrap16 (x * 10 + ((d : Int) - 48))) a = digitsValInt a ds := by
  intro ds
  induction ds with
  | nil => intro a _ _ _; simp [digitsValInt]
  | cons d t ih =>
    intro a hdig ha hbound
    have hd : 48 ≤ d ∧ d ≤ 57 := isDig_iff.mp (hdig d (List.mem_cons_self d t))
    have hd48 : (48 : Int) ≤ (d : Int) := by exact_mod_cast hd.1
    have hpos : 0 ≤ a * 10 + ((d : Int) - 48) := by nlinarith
    have htail : ∀ x ∈ t, isDig x = true := fun x hx => hdig x (List.mem_cons_of_mem d hx)
    have hb2 : digitsValInt (a * 10 + ((d : Int) - 48)) t ≤ 32767 := hbound
    have hsmall : a * 10 + ((d : Int) - 48) ≤ 32767 :=
      le_trans (digitsValInt_mono t _ htail hpos) hb2
    rw [List.foldl_cons, wrap16_id (le_trans (by norm_num) hpos) hsmall]
    exact ih (a * 10 + ((d : Int) - 48)) htail hpos hb2

theorem digitsValInt_eq_nat : ∀ (ds : List Nat) (a : Nat),
    (∀ d ∈ ds, isDig d = true) →
    digitsValInt (a : Int) ds = ((ds.foldl (fun x d => x * 10 + (d - 48)) a : Nat) : Int) := by
  intro ds
  induction ds with
  | nil => intro a _; simp [digitsValInt]
  | cons d t ih =>
    intro a hdig
    have hd : 48 ≤ d ∧ d ≤ 57 := isDig_iff.mp (hdig d (List.mem_cons_self d t))
    have hcast : ((a * 10 + (d - 48) : Nat) : Int) = (a : Int) * 10 + ((d : Int) - 48) := by
      omega
    have htail : ∀ x ∈ t, isDig x = true := fun x hx => hdig x (List.mem_cons_of_mem d hx)
    show digitsValInt ((a : Int) * 10 + ((d : Int) - 48)) t = _
    rw [← hcast, ih (a * 10 + (d - 48)) htail]
    rfl

theorem digitsValNat_cast (ds : List Nat) (h : ∀ d ∈ ds, isDig d = true) :
    digitsValInt 0 ds = ((digitsValNat ds : Nat) : Int) := by
  have := digitsValInt_eq_nat ds 0 h
  simpa [digitsValNat] using this

/-! ### Shape of the documented numeric format -/

theorem numMagTail_shape : ∀ l, numMagTail l = true →
    ∃ ds d, l = ds ++ [46, d] ∧ (∀ x ∈ ds, isDig x = true) ∧ isDig d = true := by
  intro l
  induction l with
  | nil => intro h; simp [numMagTail] at h
  | cons b t ih =>
    intro h
    cases t with
    | nil => simp [numMagTail] at h
    | cons e t2 =>
      cases t2 with
      | nil =>
        rw [show numMagTail [b, e] = (if b = 46 then isDig e else false) from rfl] at h
        by_cases hb : b = 46
        · subst hb
          rw [if_pos rfl] at h
          exact ⟨[], e, by simp, by simp, h⟩
        · rw [if_neg hb] at h
          simp at h
      | cons f t3 =>
        rw [show numMagTail (b :: e :: f :: t3) = (isDig b && numMagTail (e :: f :: t3)) from rfl] at h
        rw [Bool.and_eq_true] at h
        obtain ⟨ds', d', hshape, hds', hd'⟩ := ih h.2
        refine ⟨b :: ds', d', by rw [List.cons_append, ← hshape], ?_, hd'⟩
        intro x hx
        rcases List.mem_cons.mp hx with h' | h'
        · subst h'; exact h.1
        · exact hds' x h'

theorem numMag_shape : ∀ l, numMag l = true →
    ∃ ds d, l = ds ++ [46, d] ∧ ds ≠ [] ∧ (∀ x ∈ ds, isDig x = true) ∧ isDig d = true := by
  intro l h
  cases l with
  | nil => simp [numMag] at h
  | cons b t =>
    rw [show numMag (b :: t) = (isDig b && numMagTail t) from rfl, Bool.and_eq_true] at h
    obtain ⟨ds', d', hshape, hds', hd'⟩ := numMagTail_shape t h.2
    refine ⟨b :: ds', d', by rw [List.cons_append, ← hshape], by simp, ?_, hd'⟩
    intro x hx
    rcases List.mem_cons.mp hx with h' | h'
    · subst h'; exact h.1
    · exact hds' x h'

theorem numericFormat_shape : ∀ bs, numericFormat bs = true →
    ∃ (neg : Bool) (ds : List Nat) (d : Nat), bs = (cond neg [45] []) ++ ds ++ [46, d] ∧ ds ≠ [] ∧
      (∀ x ∈ ds, isDig x = true) ∧ isDig d = true := by
  intro bs h
  cases bs with
  | nil => simp [numericFormat] at h
  | cons b t =>
    rw [show numericFormat (b :: t) = (if b = 45 then numMag t else numMag (b :: t)) from rfl] at h
    by_cases hb : b = 45
    · subst hb
      rw [if_pos rfl] at h
      obtain ⟨ds, d, hshape, hne, hds, hd⟩ := numMag_shape t h
      exact ⟨true, ds, d, by simp [hshape], hne, hds, hd⟩
    · rw [if_neg hb] at h
      obtain ⟨ds, d, hshape, hne, hds, hd⟩ := numMag_shape (b :: t) h
      exact ⟨false, ds, d, by simp [hshape], hne, hds, hd⟩

theorem numericFormat_no_newline {ns : List Nat} (h : numericFormat ns = true) : 10 ∉ ns := by
  obtain ⟨neg, ds, d, hshape, _, hds, hd⟩ := numericFormat_shape ns h
  intro hmem
  rw [hshape] at hmem
  rcases List.mem_append.mp hmem with h1 | h1
  · rcases List.mem_append.mp h1 with h2 | h2
    · cases neg with
      | false => simp at h2
      | true => simp at h2
    · have := isDig_iff.mp (hds 10 h2)
      omega
  · rcases List.mem_cons.mp h1 with h3 | h3
    · exact absurd h3 (by norm_num)
    · rcases List.mem_cons.mp h3 with h4 | h4
      · rw [← h4] at hd
        have := isDig_iff.mp hd
        omega
      · simp at h4

/-! ### CityDetails update lemmas -/

theorem update_eq (d : CityDetails) (v : Int) :
    d.update v = ⟨min d.min v, max d.max v, wrap32 (d.sum + v), (d.count + 1) % 4294967296⟩ := by
  have h1 : (if d.min > v then v else d.min) = min d.min v := by
    split_ifs with h <;> omega
  have h2 : (if d.max < v then v else d.max) = max d.max v := by
    split_ifs with h <;> omega
  unfold CityDetails.update
  rw [h1, h2]

theorem update_comm (d : CityDetails) (a b : Int) :
    (d.update a).update b = (d.update b).update a := by
  rw [update_eq d a, update_eq d b, update_eq, update_eq]
  simp only [CityDetails.mk.injEq]
  refine ⟨by omega, by omega, ?_, trivial⟩
  rw [wrap32_add_right, wrap32_add_right]
  congr 1
  ring

theorem foldRecord_append_one (vs : List Int) (v : Int) :
    foldRecord (vs ++ [v]) = (foldRecord vs).update v := by
  simp [foldRecord, List.foldl_append]

theorem foldRecord_count : ∀ vs : List Int, (foldRecord vs).count = vs.length % 4294967296 := by
  intro vs
  induction vs using List.reverseRecOn with
  | nil => rfl
  | append_singleton ws v ih =>
    rw [foldRecord_append_one]
    show ((foldRecord ws).count + 1) % 4294967296 = _
    rw [ih, Nat.mod_add_mod]
    simp [List.length_append]

theorem foldRecord_sum : ∀ vs : List Int, (foldRecord vs).sum = wrap32 vs.sum := by
  intro vs
  induction vs using List.reverseRecOn with
  | nil =>
    show (0 : Int) = wrap32 0
    norm_num [wrap32]
  | append_singleton ws v ih =>
    rw [foldRecord_append_one]
    show wrap32 ((foldRecord ws).sum + v) = _
    rw [ih, wrap32_add_right]
    simp [List.sum_append]

theorem foldRecord_bounds : ∀ vs : List Int, vs ≠ [] → (∀ v ∈ vs, -9999 ≤ v ∧ v ≤ 9999) →
    -9999 ≤ (foldRecord vs).min ∧ (foldRecord vs).min ≤ (foldRecord vs).max ∧
      (foldRecord vs).max ≤ 9999 ∧
      (foldRecord vs).min * vs.length ≤ vs.sum ∧ vs.sum ≤ (foldRecord vs).max * vs.length := by
  intro vs
  induction vs using List.reverseRecOn with
  | nil => intro h; exact absurd rfl h
  | append_singleton ws v ih =>
    intro _ hrange
    have hv : -9999 ≤ v ∧ v ≤ 9999 := hrange v (by simp)
    rw [foldRecord_append_one, update_eq]
    rcases eq_or_ne ws [] with hws | hws
    · subst hws
      show -9999 ≤ min (32767 : Int) v ∧ min (32767 : Int) v ≤ max (-32768 : Int) v ∧
        max (-32768 : Int) v ≤ 9999 ∧ min (32767 : Int) v * ([v].length : Int) ≤ [v].sum ∧
        ([v].sum : Int) ≤ max (-32768 : Int) v * ([v].length : Int)
      simp only [List.length_cons, List.length_nil, List.sum_cons, List.sum_nil, Nat.cast_one,
        add_zero]
      constructor
      · omega
      constructor
      · omega
      constructor
      · omega
      constructor
      · simp
      · simp
    · obtain ⟨h1, h2, h3, h4, h5⟩ := ih hws fun x hx => hrange x (List.mem_append_left _ hx)
      show -9999 ≤ min (foldRecord ws).min v ∧ min (foldRecord ws).min v ≤ max (foldRecord ws).max v ∧
        max (foldRecord ws).max v ≤ 9999 ∧
        min (foldRecord ws).min v * ((ws ++ [v]).length : Int) ≤ (ws ++ [v]).sum ∧
        ((ws ++ [v]).sum : Int) ≤ max (foldRecord ws).max v * ((ws ++ [v]).length : Int)
      have hlen : ((ws ++ [v]).length : Int) = (ws.length : Int) + 1 := by
        simp [List.length_append]
      have hsum : (ws ++ [v]).sum = ws.sum + v := by
        simp [List.sum_append]
      have hn : (0 : Int) ≤ (ws.length : Int) := Int.natCast_nonneg _
      have hminle : min (foldRecord ws).min v ≤ (foldRecord ws).min := min_le_left _ _
      have hminv : min (foldRecord ws).min v ≤ v := min_le_right _ _
      have hmaxge : (foldRecord ws).max ≤ max (foldRecord ws).max v := le_max_left _ _
      have hmaxv : v ≤ max (foldRecord ws).max v := le_max_right _ _
      have hmul1 : min (foldRecord ws).min v * (ws.length : Int) ≤ (foldRecord ws).min * (ws.length : Int) :=
        mul_le_mul_of_nonneg_right hminle hn
      have hmul2 : (foldRecord ws).max * (ws.length : Int) ≤ max (foldRecord ws).max v * (ws.length : Int) :=
        mul_le_mul_of_nonneg_right hmaxge hn
      rw [hlen, hsum]
      constructor
      · omega
      constructor
      · omega
      constructor
      · omega
      constructor
      · nlinarith
      · nlinarith

theorem sum_range_bound : ∀ vs : List Int, (∀ v ∈ vs, -9999 ≤ v ∧ v ≤ 9999) →
    -9999 * vs.length ≤ vs.sum ∧ vs.sum ≤ 9999 * vs.length := by
  intro vs
  induction vs with
  | nil => intro _; simp
  | cons v t ih =>
    intro hrange
    have hv := hrange v (List.mem_cons_self v t)
    obtain ⟨ih1, ih2⟩ := ih fun x hx => hrange x (List.mem_cons_of_mem v hx)
    simp only [List.sum_cons, List.length_cons]
    have hcast : ((t.length + 1 : Nat) : Int) = (t.length : Int) + 1 := by push_cast; ring
    rw [hcast]
    constructor <;> nlinarith

/-! ### Aggregation table lemmas -/

theorem lookup_observe : ∀ (m : List (List Nat × CityDetails)) (k : List Nat) (v : Int) (k' : List Nat),
    lookupKey k' (observe m k v) =
      if k' = k then some (((lookupKey k m).getD CityDetails.default).update v)
      else lookupKey k' m := by
  intro m
  induction m with
  | nil =>
    intro k v k'
    by_cases h : k' = k
    · subst h; simp [observe, lookupKey]
    · have h2 : ¬k = k' := fun hh => h hh.symm
      simp [observe, lookupKey, h, h2]
  | cons p rest ih =>
    intro k v k'
    obtain ⟨k0, d0⟩ := p
    by_cases hk : k0 = k
    · subst hk
      rw [show observe ((k0, d0) :: rest) k0 v = (k0, d0.update v) :: rest from by
        simp [observe]]
      by_cases h' : k' = k0
      · subst h'
        simp [lookupKey]
      · have h2 : ¬k0 = k' := fun hh => h' hh.symm
        simp [lookupKey, h2, h']
    · rw [show observe ((k0, d0) :: rest) k v = (k0, d0) :: observe rest k v from by
        simp [observe, hk]]
      by_cases h' : k' = k0
      · subst h'
        have hne : ¬k' = k := fun hh => hk (hh ▸ rfl)
        simp [lookupKey, hne]
      · have h2 : ¬k0 = k' := fun hh => h' hh.symm
        simp [lookupKey, h2, hk, ih k v k']

theorem keys_observe : ∀ (m : List (List Nat × CityDetails)) (k : List Nat) (v : Int),
    (observe m k v).map Prod.fst =
      if k ∈ m.map Prod.fst then m.map Prod.fst else m.map Prod.fst ++ [k] := by
  intro m
  induction m with
  | nil => intro k v; simp [observe]
  | cons p rest ih =>
    intro k v
    obtain ⟨k0, d0⟩ := p
    by_cases hk : k0 = k
    · subst hk
      rw [show observe ((k0, d0) :: rest) k0 v = (k0, d0.update v) :: rest from by
        simp [observe]]
      simp
    · rw [show observe ((k0, d0) :: rest) k v = (k0, d0) :: observe rest k v from by
        simp [observe, hk]]
      have hne : ¬k = k0 := fun hh => hk hh.symm
      by_cases hmem : k ∈ rest.map Prod.fst
      · simp [ih, hmem, hne]
      · simp [ih, hmem, hne]

theorem keys_nodup_observe {m : List (List Nat × CityDetails)} {k : List Nat} {v : Int}
    (h : (m.map Prod.fst).Nodup) : ((observe m k v).map Prod.fst).Nodup := by
  rw [keys_observe]
  by_cases hmem : k ∈ m.map Prod.fst
  · rw [if_pos hmem]; exact h
  · rw [if_neg hmem]
    rw [List.nodup_append]
    exact ⟨h, List.nodup_singleton k, by
      intro x hx hx2
      rw [List.mem_singleton] at hx2
      exact hmem (hx2 ▸ hx)⟩

theorem keys_nodup_foldl : ∀ (ps : List (List Nat × Int)) (m : List (List Nat × CityDetails)),
    (m.map Prod.fst).Nodup →
    (((ps.foldl (fun mm p => observe mm p.1 p.2) m)).map Prod.fst).Nodup := by
  intro ps
  induction ps with
  | nil => intro m h; exact h
  | cons p t ih =>
    intro m h
    exact ih (observe m p.1 p.2) (keys_nodup_observe h)

theorem aggregate_keys_nodup (ps : List (List Nat × Int)) :
    ((aggregate ps).map Prod.fst).Nodup :=
  keys_nodup_foldl ps [] (by simp)

theorem lookup_foldl : ∀ (ps : List (List Nat × Int)) (m : List (List Nat × CityDetails)) (k : List Nat),
    lookupKey k (ps.foldl (fun mm p => observe mm p.1 p.2) m) =
      (valsFor k ps).foldl obsOpt (lookupKey k m) := by
  intro ps
  induction ps with
  | nil => intro m k; simp [valsFor]
  | cons p t ih =>
    intro m k
    rw [List.foldl_cons, ih]
    by_cases hp : p.1 = k
    · have hv : valsFor k (p :: t) = p.2 :: valsFor k t := by
        simp [valsFor, List.filterMap_cons, hp]
      rw [hv, List.foldl_cons]
      congr 1
      rw [lookup_observe, if_pos hp.symm, hp]
      rfl
    · have hv : valsFor k (p :: t) = valsFor k t := by
        simp [valsFor, List.filterMap_cons, hp]
      rw [hv]
      congr 1
      rw [lookup_observe, if_neg (fun hh : k = p.1 => hp hh.symm)]

theorem lookup_aggregate (ps : List (List Nat × Int)) (k : List Nat) :
    lookupKey k (aggregate ps) = (valsFor k ps).foldl obsOpt none := by
  have := lookup_foldl ps [] k
  simpa [aggregate, lookupKey] using this

theorem foldl_obsOpt_perm {l1 l2 : List Int} (hp : l1.Perm l2) :
    ∀ o : Option CityDetails, l1.foldl obsOpt o = l2.foldl obsOpt o := by
  induction hp with
  | nil => intro o; rfl
  | cons x _ ih =>
    intro o
    rw [List.foldl_cons, List.foldl_cons, ih]
  | swap x y l =>
    intro o
    rw [List.foldl_cons, List.foldl_cons, List.foldl_cons, List.foldl_cons]
    have : obsOpt (obsOpt o y) x = obsOpt (obsOpt o x) y := by
      simp [obsOpt, update_comm]
    rw [this]
  | trans _ _ ih1 ih2 =>
    intro o
    rw [ih1, ih2]

/-! ### Byte-lexicographic order and sorting -/

theorem lexLt_irrefl : ∀ a : List Nat, lexLt a a = false := by
  intro a
  induction a with
  | nil => rfl
  | cons x xs ih => simp [lexLt, ih]

theorem lexLt_asymm : ∀ a b : List Nat, lexLt a b = true → lexLt b a = false := by
  intro a
  induction a with
  | nil =>
    intro b h
    cases b with
    | nil => simp [lexLt] at h
    | cons y ys => rfl
  | cons x xs ih =>
    intro b h
    cases b with
    | nil => simp [lexLt] at h
    | cons y ys =>
      rw [lexLt] at h ⊢
      rcases lt_trichotomy x y with h1 | h1 | h1
      · rw [if_neg (by omega), if_pos h1]
      · subst h1
        rw [if_neg (by omega), if_neg (by omega)] at h ⊢
        exact ih ys h
      · rw [if_neg (by omega), if_pos h1] at h
        simp at h

theorem lexLt_conn : ∀ a b : List Nat, lexLt a b = true ∨ lexLt b a = true ∨ a = b := by
  intro a
  induction a with
  | nil =>
    intro b
    cases b with
    | nil => right; right; rfl
    | cons y ys => left; rfl
  | cons x xs ih =>
    intro b
    cases b with
    | nil => right; left; rfl
    | cons y ys =>
      rcases lt_trichotomy x y with h1 | h1 | h1
      · left; rw [lexLt, if_pos h1]
      · subst h1
        rcases ih ys with h2 | h2 | h2
        · left; rw [lexLt, if_neg (by omega), if_neg (by omega)]; exact h2
        · right; left; rw [lexLt, if_neg (by omega), if_neg (by omega)]; exact h2
        · right; right; rw [h2]
      · right; left; rw [lexLt, if_pos h1]

theorem lexLt_trans : ∀ a b c : List Nat, lexLt a b = true → lexLt b c = true → lexLt a c = true := by
  intro a
  induction a with
  | nil =>
    intro b c hab hbc
    cases b with
    | nil => simp [lexLt] at hab
    | cons y ys =>
      cases c with
      | nil => simp [lexLt] at hbc
      | cons z zs => rfl
  | cons x xs ih =>
    intro b c hab hbc
    cases b with
    | nil => simp [lexLt] at hab
    | cons y ys =>
      cases c with
      | nil => simp [lexLt] at hbc
      | cons z zs =>
        rw [lexLt] at hab hbc ⊢
        rcases lt_trichotomy x y with h1 | h1 | h1
        · rcases lt_trichotomy y z with h2 | h2 | h2
          · rw [if_pos (by omega)]
          · subst h2; rw [if_pos h1]
          · rw [if_neg (by omega), if_pos h2] at hbc
            simp at hbc
        · subst h1
          rw [if_neg (by omega), if_neg (by omega)] at hab
          rcases lt_trichotomy x z with h2 | h2 | h2
          · rw [if_pos h2]
          · subst h2
            rw [if_neg (by omega), if_neg (by omega)] at hbc ⊢
            exact ih ys zs hab hbc
          · rw [if_neg (by omega), if_pos h2] at hbc
            simp at hbc
        · rw [if_neg (by omega), if_pos h1] at hab
          simp at hab

theorem keyLe_total : ∀ p q : List Nat × CityDetails, keyLe p q ∨ keyLe q p := by
  intro p q
  cases hh : lexLt q.1 p.1 with
  | false => left; exact hh
  | true => right; exact lexLt_asymm q.1 p.1 hh

theorem keyLe_trans : ∀ p q r : List Nat × CityDetails, keyLe p q → keyLe q r → keyLe p r := by
  intro p q r hpq hqr
  unfold keyLe at hpq hqr ⊢
  by_contra hc
  rw [Bool.not_eq_false] at hc
  rcases lexLt_conn q.1 r.1 with h1 | h1 | h1
  · have := lexLt_trans q.1 r.1 p.1 h1 hc
    rw [this] at hpq
    simp at hpq
  · rw [h1] at hqr
    simp at hqr
  · rw [← h1] at hc
    rw [hc] at hpq
    simp at hpq

theorem pairwise_orderedInsert : ∀ (l : List (List Nat × CityDetails)) (p : List Nat × CityDetails),
    l.Pairwise keyLe → (List.orderedInsert keyLe p l).Pairwise keyLe := by
  intro l
  induction l with
  | nil => intro p _; simp
  | cons q t ih =>
    intro p h
    rw [List.orderedInsert]
    rcases List.pairwise_cons.mp h with ⟨hq, ht⟩
    split_ifs with hle
    · refine List.pairwise_cons.mpr ⟨?_, h⟩
      intro x hx
      rcases List.mem_cons.mp hx with h' | h'
      · subst h'; exact hle
      · exact keyLe_trans p q x hle (hq x h')
    · refine List.pairwise_cons.mpr ⟨?_, ih p ht⟩
      intro x hx
      rcases (List.mem_orderedInsert keyLe).mp hx with h' | h'
      · subst h'
        rcases keyLe_total q x with h2 | h2
        · exact h2
        · exact absurd h2 hle
      · exact hq x h'

theorem pairwise_sortPairs : ∀ m : List (List Nat × CityDetails), (sortPairs m).Pairwise keyLe := by
  intro m
  induction m with
  | nil => simp [sortPairs, List.insertionSort]
  | cons p t ih =>
    rw [sortPairs, List.insertionSort]
    exact pairwise_orderedInsert _ p ih

theorem sortPairs_strict (m : List (List Nat × CityDetails)) (h : (m.map Prod.fst).Nodup) :
    (sortPairs m).Pairwise fun p q => lexLt p.1 q.1 = true := by
  have hpw := pairwise_sortPairs m
  have hperm : (sortPairs m).Perm m := List.perm_insertionSort keyLe m
  have hnd : ((sortPairs m).map Prod.fst).Nodup := ((hperm.map Prod.fst).nodup_iff).mpr h
  have hne : (sortPairs m).Pairwise fun p q => p.1 ≠ q.1 := List.pairwise_map.mp hnd
  refine (hpw.and hne).imp ?_
  intro a b hab
  rcases lexLt_conn a.1 b.1 with h1 | h1 | h1
  · exact h1
  · rw [show lexLt b.1 a.1 = false from hab.1] at h1
    exact absurd h1 (by simp)
  · exact absurd h1 hab.2

/-! ### Scanner loop lemmas -/

theorem getLast?_append_ne (l1 l2 : List Nat) (h : l2 ≠ []) :
    (l1 ++ l2).getLast? = l2.getLast? := by
  rw [List.getLast?_eq_head?_reverse, List.getLast?_eq_head?_reverse, List.reverse_append]
  cases hr : l2.reverse with
  | nil => exact absurd (List.reverse_eq_nil_iff.mp hr) h
  | cons y ys => simp

theorem runLoop_eq_unsafe : ∀ (fuel : Nat) (b : List Nat) (m : List (List Nat × CityDetails)),
    runLoop fuel b m = runLoopUnsafe fuel b m := by
  intro fuel
  induction fuel with
  | zero =>
    intro b m
    cases b with
    | nil => rfl
    | cons x xs => rfl
  | succ f ih =>
    intro b m
    cases b with
    | nil => rfl
    | cons x xs =>
      cases hm : memchr 59 (x :: xs) with
      | none => simp only [runLoop, runLoopUnsafe, hm]
      | some p =>
        obtain ⟨city, rest1⟩ := p
        cases hm2 : memchr 10 rest1 with
        | none => simp only [runLoop, runLoopUnsafe, hm, hm2]
        | some p2 =>
          obtain ⟨numeric, rest2⟩ := p2
          simp only [runLoop, runLoopUnsafe, hm, hm2]
          exact ih rest2 _

theorem runLoop_scan : ∀ (fuel : Nat) (b : List Nat) (m : List (List Nat × CityDetails)),
    runLoop fuel b m =
      (scanLoop fuel b).map fun ps => ps.foldl (fun mm p => observe mm p.1 p.2) m := by
  intro fuel
  induction fuel with
  | zero =>
    intro b m
    cases b with
    | nil => rfl
    | cons x xs => rfl
  | succ f ih =>
    intro b m
    cases b with
    | nil => rfl
    | cons x xs =>
      cases hm : memchr 59 (x :: xs) with
      | none => simp only [runLoop, scanLoop, hm, Option.map_none']
      | some p =>
        obtain ⟨city, rest1⟩ := p
        cases hm2 : memchr 10 rest1 with
        | none => simp only [runLoop, scanLoop, hm, hm2, Option.map_none']
        | some p2 =>
          obtain ⟨numeric, rest2⟩ := p2
          simp only [runLoop, scanLoop, hm, hm2]
          rw [ih rest2 (observe m city (parse_digits numeric))]
          cases hs : scanLoop f rest2 with
          | none => rfl
          | some ps => rfl

theorem scanLoop_render : ∀ (ls : List (List Nat × List Nat)) (fuel : Nat) (b : List Nat),
    b = (ls.map fun l => l.1 ++ 59 :: l.2 ++ [10]).flatten → b.length ≤ fuel →
    (∀ l ∈ ls, 59 ∉ l.1 ∧ 10 ∉ l.2) →
    scanLoop fuel b = some (ls.map fun l => (l.1, parse_digits l.2)) := by
  intro ls
  induction ls with
  | nil =>
    intro fuel b hb _ _
    subst hb
    cases fuel <;> rfl
  | cons l0 rest ih =>
    intro fuel b hb hlen hok
    have h0 := hok l0 (List.mem_cons_self l0 rest)
    have hB : b = l0.1 ++ 59 :: (l0.2 ++ 10 ::
        (rest.map fun l => l.1 ++ 59 :: l.2 ++ [10]).flatten) := by
      rw [hb]
      simp [List.append_assoc]
    have hm1 : memchr 59 b = some (l0.1, l0.2 ++ 10 ::
        (rest.map fun l => l.1 ++ 59 :: l.2 ++ [10]).flatten) := by
      rw [hB]
      exact memchr_append _ h0.1
    have hm2 : memchr 10 (l0.2 ++ 10 :: (rest.map fun l => l.1 ++ 59 :: l.2 ++ [10]).flatten) =
        some (l0.2, (rest.map fun l => l.1 ++ 59 :: l.2 ++ [10]).flatten) :=
      memchr_append _ h0.2
    cases fuel with
    | zero =>
      exfalso
      rw [hB] at hlen
      simp at hlen
    | succ f =>
      have htail : ((rest.map fun l => l.1 ++ 59 :: l.2 ++ [10]).flatten).length ≤ f := by
        have : b.length = l0.1.length + l0.2.length + 2 +
            ((rest.map fun l => l.1 ++ 59 :: l.2 ++ [10]).flatten).length := by
          rw [hB]; simp; omega
        omega
      have hrec := ih f _ rfl htail fun l hl => hok l (List.mem_cons_of_mem l0 hl)
      cases hBc : b with
      | nil => rw [hBc] at hB; simp at hB
      | cons x xs =>
        rw [hBc] at hm1
        simp only [scanLoop, hm1, hm2, hrec]
        simp

theorem scan_success_last : ∀ (fuel : Nat) (b : List Nat), b.length ≤ fuel →
    (scanLoop fuel b).isSome = true → b = [] ∨ b.getLast? = some 10 := by
  intro fuel
  induction fuel with
  | zero =>
    intro b hlen _
    left
    exact List.eq_nil_of_length_eq_zero (Nat.le_zero.mp hlen)
  | succ f ih =>
    intro b hlen hsome
    cases b with
    | nil => left; rfl
    | cons x xs =>
      right
      cases hm : memchr 59 (x :: xs) with
      | none => rw [show scanLoop (f + 1) (x :: xs) = none from by simp only [scanLoop, hm]] at hsome; simp at hsome
      | some p =>
        obtain ⟨city, rest1⟩ := p
        cases hm2 : memchr 10 rest1 with
        | none =>
          rw [show scanLoop (f + 1) (x :: xs) = none from by simp only [scanLoop, hm, hm2]] at hsome
          simp at hsome
        | some p2 =>
          obtain ⟨numeric, rest2⟩ := p2
          cases hs : scanLoop f rest2 with
          | none =>
            rw [show scanLoop (f + 1) (x :: xs) = none from by simp only [scanLoop, hm, hm2, hs]] at hsome
            simp at hsome
          | some ps =>
            obtain ⟨hb1, _⟩ := memchr_eq hm
            obtain ⟨hr1, _⟩ := memchr_eq hm2
            have hlen2 : rest2.length ≤ f := by
              have e1 : (x :: xs).length = city.length + 1 + rest1.length := by
                rw [hb1]; simp; omega
              have e2 : rest1.length = numeric.length + 1 + rest2.length := by
                rw [hr1]; simp; omega
              have := hlen
              simp only [List.length_cons] at this
              omega
            rcases ih rest2 hlen2 (by rw [hs]; rfl) with h2 | h2
            · subst h2
              have : x :: xs = (city ++ 59 :: numeric) ++ [10] := by
                rw [hb1, hr1]
                simp
              rw [this, List.getLast?_concat]
            · have hne : rest2 ≠ [] := by
                intro hh
                rw [hh] at h2
                simp at h2
              have : x :: xs = (city ++ 59 :: numeric ++ [10]) ++ rest2 := by
                rw [hb1, hr1]
                simp
              rw [this, getLast?_append_ne _ _ hne]
              exact h2

theorem mem_of_getLast10 (l : List Nat) (h : l.getLast? = some 10) : 10 ∈ l := by
  rw [List.getLast?_eq_head?_reverse] at h
  rw [← List.mem_reverse]
  cases hr : l.reverse with
  | nil => rw [hr] at h; simp at h
  | cons y ys =>
    rw [hr] at h
    simp at h
    rw [h]
    exact List.mem_cons_self 10 ys

theorem scanLoop_tail_none : ∀ (fuel : Nat) (u t : List Nat), t ≠ [] → 59 ∉ t →
    (u = [] ∨ u.getLast? = some 10) → scanLoop fuel (u ++ t) = none := by
  intro fuel
  induction fuel with
  | zero =>
    intro u t ht _ _
    cases hc : u ++ t with
    | nil => exact absurd (List.append_eq_nil.mp hc).2 ht
    | cons x xs => rfl
  | succ f ih =>
    intro u t ht h59 hu
    cases hm : memchr 59 (u ++ t) with
    | none =>
      cases hc : u ++ t with
      | nil => exact absurd (List.append_eq_nil.mp hc).2 ht
      | cons x xs =>
        rw [hc] at hm
        simp only [scanLoop, hm]
    | some p =>
      obtain ⟨k, rest1⟩ := p
      obtain ⟨hsplit, h59k⟩ := memchr_eq hm
      rcases List.append_eq_append_iff.mp hsplit with ⟨a1, hk, htl⟩ | ⟨c1, hu2, hc1⟩
      · exfalso
        apply h59
        rw [htl]
        exact List.mem_append_right _ (List.mem_cons_self 59 rest1)
      · cases c1 with
        | nil =>
          exfalso
          apply h59
          simp only [List.nil_append] at hc1
          rw [← hc1]
          exact List.mem_cons_self 59 rest1
        | cons c0 c2 =>
          rw [List.cons_append] at hc1
          injection hc1 with hc0 hrest1
          -- hc0 : 59 = c0, hrest1 : rest1 = c2 ++ t
          have hune : u ≠ [] := by
            rw [hu2]
            simp
          have hu10 : u.getLast? = some 10 := by
            rcases hu with h | h
            · exact absurd h hune
            · exact h
          have hc2ne : c2 ≠ [] := by
            intro hh
            rw [hu2, hh, ← hc0] at hu10
            rw [show k ++ [59] = k ++ [59] from rfl] at hu10
            rw [List.getLast?_concat] at hu10
            simp at hu10
          have hc2last : c2.getLast? = some 10 := by
            have : u = (k ++ [c0]) ++ c2 := by
              rw [hu2]
              simp
            rw [this, getLast?_append_ne _ _ hc2ne] at hu10
            exact hu10
          have h10c2 : 10 ∈ c2 := mem_of_getLast10 c2 hc2last
          cases hm2 : memchr 10 rest1 with
          | none =>
            cases hc : u ++ t with
            | nil => exact absurd (List.append_eq_nil.mp hc).2 ht
            | cons x xs =>
              rw [hc] at hm
              simp only [scanLoop, hm, hm2]
          | some p2 =>
            obtain ⟨nm, rest2⟩ := p2
            obtain ⟨hsplit2, h10nm⟩ := memchr_eq hm2
            rw [hrest1] at hsplit2
            rcases List.append_eq_append_iff.mp hsplit2 with ⟨a2, hnm, ht2⟩ | ⟨d1, hc2, hd1⟩
            · exfalso
              apply h10nm
              rw [hnm]
              exact List.mem_append_left _ h10c2
            · cases d1 with
              | nil =>
                exfalso
                apply h10nm
                rw [List.append_nil] at hc2
                rw [← hc2]
                exact h10c2
              | cons d0 d2 =>
                rw [List.cons_append] at hd1
                injection hd1 with hd0 hrest2
                -- hd0 : 10 = d0, hrest2 : rest2 = d2 ++ t
                have hu' : d2 = [] ∨ d2.getLast? = some 10 := by
                  cases hd2 : d2 with
                  | nil => left; rfl
                  | cons e0 e2 =>
                    right
                    rw [← hd2]
                    have hd2ne : d2 ≠ [] := by rw [hd2]; simp
                    have : c2 = (nm ++ [d0]) ++ d2 := by
                      rw [hc2]
                      simp
                    rw [this, getLast?_append_ne _ _ hd2ne] at hc2last
                    exact hc2last
                have hrec := ih d2 t ht h59 hu'
                cases hc : u ++ t with
                | nil => exact absurd (List.append_eq_nil.mp hc).2 ht
                | cons x xs =>
                  rw [hc] at hm
                  simp only [scanLoop, hm, hm2]
                  rw [hrest2, hrec]

/-! ### Printing lemmas -/

theorem foldl_sep (xs : List (List Nat × CityDetails)) : ∀ acc : List Nat,
    xs.foldl (fun a q => a ++ 44 :: 32 :: entryBytes q) acc =
      acc ++ (xs.map fun q => 44 :: 32 :: entryBytes q).flatten := by
  induction xs with
  | nil => intro acc; simp
  | cons q t ih =>
    intro acc
    rw [List.foldl_cons, ih]
    simp

theorem specSepConcat_cons (x : List Nat) : ∀ xs : List (List Nat),
    specSepConcat (x :: xs) = x ++ (xs.map fun y => 44 :: 32 :: y).flatten := by
  intro xs
  induction xs generalizing x with
  | nil => simp [specSepConcat]
  | cons y ys ih =>
    rw [show specSepConcat (x :: y :: ys) = x ++ 44 :: 32 :: specSepConcat (y :: ys) from rfl]
    rw [ih y]
    simp

/-! ### Bridging read_mmap to the scan view -/

theorem read_mmap_scan (b : List Nat) :
    read_mmap b = (scanLoop b.length b).map fun ps => sortPairs (aggregate ps) := by
  rw [read_mmap, runLoop_scan]
  cases hs : scanLoop b.length b with
  | none => rfl
  | some ps => rfl

/-! ### Claim theorems -/

/-- C1: on every well-formed input buffer (lines key;value newline, keys free
of the delimiters, values in the documented numeric format), the
bounds-checked reader read_mmap and the bounds-elision reader
read_mmap_unsafe return identical sorted sequences of (key, statistics)
pairs, and the result exists (no failure). -/
theorem read_mmap_eq_unsafe (b : List Nat) (hw : wellFormed b) :
    read_mmap b = read_mmap_unsafe b ∧ (read_mmap b).isSome = true := by
  constructor
  · rw [read_mmap, read_mmap_unsafe, runLoop_eq_unsafe]
  · obtain ⟨ls, hb, hok⟩ := hw
    have hok' : ∀ l ∈ ls, 59 ∉ l.1 ∧ 10 ∉ l.2 := by
      intro l hl
      obtain ⟨h1, _, h3⟩ := hok l hl
      exact ⟨h1, numericFormat_no_newline h3⟩
    have hr := scanLoop_render ls b.length b hb (le_refl _) hok'
    rw [read_mmap_scan, hr]
    rfl

/-- C1 witness: the one-line buffer a;1.0 newline. -/
theorem read_mmap_eq_unsafe_witness :
    wellFormed [97, 59, 49, 46, 48, 10] ∧
      (read_mmap [97, 59, 49, 46, 48, 10] = read_mmap_unsafe [97, 59, 49, 46, 48, 10] ∧
        (read_mmap [97, 59, 49, 46, 48, 10]).isSome = true) := by
  have hw : wellFormed [97, 59, 49, 46, 48, 10] :=
    ⟨[([97], [49, 46, 48])], by decide, by decide⟩
  exact ⟨hw, read_mmap_eq_unsafe _ hw⟩

/-- C3: one aggregation step looks up the key's record or creates it with the
sentinel defaults (min 32767, max -32768, sum 0, count 0) and then sets min
to min(min, v), max to max(max, v), adds v to the wider (i32) sum, and
increments the count; every other key is untouched. -/
theorem observe_spec (m : List (List Nat × CityDetails)) (k : List Nat) (v : Int) (k' : List Nat) :
    lookupKey k' (observe m k v) =
      if k' = k then
        some ⟨min ((lookupKey k m).getD CityDetails.default).min v,
              max ((lookupKey k m).getD CityDetails.default).max v,
              wrap32 (((lookupKey k m).getD CityDetails.default).sum + v),
              (((lookupKey k m).getD CityDetails.default).count + 1) % 4294967296⟩
      else lookupKey k' m := by
  rw [lookup_observe]
  by_cases h : k' = k
  · rw [if_pos h, if_pos h, update_eq]
  · rw [if_neg h, if_neg h]

/-- C10: parse_digits is total and its result depends only on the digit
bytes in order and on whether any '-' byte occurs anywhere: every other byte
contributes nothing, and a '-' anywhere negates the folded digit value. -/
theorem parse_digits_total (bs : List Nat) :
    parse_digits bs = wrap16 ((if 45 ∈ bs then -1 else 1) * foldDigitsW (bs.filter isDig)) :=
  parse_digits_decomp bs

/-- C2: for every byte slice of the documented numeric format (optional
leading '-', one or more digits, '.', exactly one digit) denoting a decimal
value v with 10*v in [-9999, 9999], parse_digits returns exactly the integer
10*v, with no rounding error. -/
theorem parse_digits_exact (bs : List Nat) (h : numericFormat bs = true)
    (hlo : -9999 ≤ 10 * ratVal bs) (hhi : 10 * ratVal bs ≤ 9999) :
    (parse_digits bs : ℚ) = 10 * ratVal bs := by
  obtain ⟨neg, ds, d, hshape, hne, hds, hd⟩ := numericFormat_shape bs h
  have hd48 := isDig_iff.mp hd
  have h46ds : 46 ∉ ds := by
    intro hmem
    have := isDig_iff.mp (hds 46 hmem)
    omega
  have h45ds : 45 ∉ ds := by
    intro hmem
    have := isDig_iff.mp (hds 45 hmem)
    omega
  have alldig : ∀ x ∈ ds ++ [d], isDig x = true := by
    intro x hx
    rcases List.mem_append.mp hx with h1 | h1
    · exact hds x h1
    · rw [List.mem_singleton] at h1
      subst h1
      exact hd
  have hfilter : bs.filter isDig = ds ++ [d] := by
    rw [hshape, List.filter_append, List.filter_append]
    have h1 : (cond neg [45] []).filter isDig = [] := by
      cases neg <;> rfl
    have h2 : ds.filter isDig = ds := List.filter_eq_self.mpr fun a ha => hds a ha
    have h3 : ([46, d] : List Nat).filter isDig = [d] := by
      rw [show ([46, d] : List Nat) = 46 :: [d] from rfl, List.filter_cons_of_neg (by decide),
        List.filter_cons_of_pos hd, List.filter_nil]
    rw [h1, h2, h3]
    simp
  have h45bs : 45 ∈ bs ↔ neg = true := by
    rw [hshape]
    constructor
    · intro hmem
      rcases List.mem_append.mp hmem with h1 | h1
      · rcases List.mem_append.mp h1 with h2 | h2
        · cases neg with
          | true => rfl
          | false => simp at h2
        · exact absurd h2 h45ds
      · rcases List.mem_cons.mp h1 with h2 | h2
        · exact absurd h2 (by norm_num)
        · rcases List.mem_cons.mp h2 with h3 | h3
          · omega
          · simp at h3
    · intro hn
      subst hn
      exact List.mem_append_left _ (List.mem_append_left _ (List.mem_singleton.mpr rfl))
  have hmag : magVal (ds ++ [46, d]) = (digitsValNat ds : ℚ) + ((d : ℚ) - 48) / 10 := by
    unfold magVal
    rw [show ds ++ [46, d] = ds ++ 46 :: [d] from rfl, memchr_append _ h46ds]
  have hrat : ratVal bs = (cond neg (-1) 1 : ℚ) * ((digitsValNat ds : ℚ) + ((d : ℚ) - 48) / 10) := by
    cases neg with
    | true =>
      have hb : bs = 45 :: (ds ++ [46, d]) := by
        rw [hshape]; simp
      rw [hb, show ratVal (45 :: (ds ++ [46, d])) =
        if (45 : Nat) = 45 then -magVal (ds ++ [46, d]) else magVal (45 :: (ds ++ [46, d])) from rfl,
        if_pos rfl, hmag]
      simp
    | false =>
      cases hds0 : ds with
      | nil => exact absurd hds0 hne
      | cons d0 ds' =>
        have hd0 := isDig_iff.mp (hds d0 (by rw [hds0]; exact List.mem_cons_self d0 ds'))
        have hb : bs = d0 :: (ds' ++ [46, d]) := by
          rw [hshape, hds0]; simp
        have hd045 : ¬d0 = 45 := by omega
        rw [hb, show ratVal (d0 :: (ds' ++ [46, d])) =
          if d0 = 45 then -magVal (ds' ++ [46, d]) else magVal (d0 :: (ds' ++ [46, d])) from rfl,
          if_neg hd045]
        rw [show d0 :: (ds' ++ [46, d]) = (d0 :: ds') ++ [46, d] from rfl, ← hds0, hmag]
        simp
  have hN0 : 0 ≤ digitsValInt 0 ds := digitsValInt_mono ds 0 hds (le_refl 0)
  have hMint : digitsValInt 0 (ds ++ [d]) = digitsValInt 0 ds * 10 + ((d : Int) - 48) := by
    simp [digitsValInt, List.foldl_append]
  have hM0 : 0 ≤ digitsValInt 0 ds * 10 + ((d : Int) - 48) := by omega
  have hNQ : ((digitsValInt 0 ds : Int) : ℚ) = (digitsValNat ds : ℚ) := by
    rw [digitsValNat_cast ds hds]
    push_cast
    rfl
  have hMQ : (10 : ℚ) * ratVal bs =
      (cond neg (-1) 1 : ℚ) * ((digitsValInt 0 ds * 10 + ((d : Int) - 48) : Int) : ℚ) := by
    rw [hrat]
    cases neg with
    | true =>
      push_cast
      rw [show ((digitsValInt 0 ds : Int) : ℚ) = (digitsValNat ds : ℚ) from hNQ]
      ring
    | false =>
      push_cast
      rw [show ((digitsValInt 0 ds : Int) : ℚ) = (digitsValNat ds : ℚ) from hNQ]
      ring
  have hMbound : digitsValInt 0 ds * 10 + ((d : Int) - 48) ≤ 9999 := by
    by_contra hcon
    push_neg at hcon
    have hq : (9999 : ℚ) < ((digitsValInt 0 ds * 10 + ((d : Int) - 48) : Int) : ℚ) := by
      exact_mod_cast hcon
    cases neg with
    | true =>
      rw [hMQ] at hlo
      rw [show (cond true (-1) 1 : ℚ) = -1 from rfl] at hlo
      linarith
    | false =>
      rw [hMQ] at hhi
      rw [show (cond false (-1) 1 : ℚ) = 1 from rfl] at hhi
      linarith
  have hfold : foldDigitsW (ds ++ [d]) = digitsValInt 0 ds * 10 + ((d : Int) - 48) := by
    rw [foldDigitsW, foldW_exact (ds ++ [d]) 0 alldig (le_refl 0) (by rw [hMint]; omega)]
    exact hMint
  rw [parse_digits_decomp, hfilter, hfold]
  have hsign : (if 45 ∈ bs then (-1 : Int) else 1) = cond neg (-1) 1 := by
    cases neg with
    | true => rw [if_pos (h45bs.mpr rfl)]; rfl
    | false =>
      rw [if_neg fun hh => by simp [h45bs] at hh]
      rfl
  rw [hsign]
  have hws : wrap16 ((cond neg (-1) 1 : Int) * (digitsValInt 0 ds * 10 + ((d : Int) - 48))) =
      (cond neg (-1) 1 : Int) * (digitsValInt 0 ds * 10 + ((d : Int) - 48)) := by
    apply wrap16_id <;> cases neg <;> simp <;> omega
  rw [hws, hMQ]
  cases neg <;> simp only [cond] <;> push_cast <;> ring

/-- C2 witness: the byte slice for -3.2 parses to exactly -32. -/
theorem parse_digits_exact_witness :
    numericFormat [45, 51, 46, 50] = true ∧
      (parse_digits [45, 51, 46, 50] : ℚ) = 10 * ratVal [45, 51, 46, 50] := by
  refine ⟨by decide, parse_digits_exact [45, 51, 46, 50] (by decide) ?_ ?_⟩
  · show (-9999 : ℚ) ≤ 10 * ratVal [45, 51, 46, 50]
    norm_num [ratVal, magVal, memchr, digitsValNat]
  · show (10 : ℚ) * ratVal [45, 51, 46, 50] ≤ 9999
    norm_num [ratVal, magVal, memchr, digitsValNat]

/-- C4 counterexample: after the single update 50 (the value 5.0), count is
positive but sum/count = 50 does not lie in [min/10, max/10] = [5, 5]; the
claim's interval is off by the scaling factor 10. -/
theorem record_mean_claim_cex :
    0 < (foldRecord [50]).count ∧
      ¬(((foldRecord [50]).sum : ℚ) / ((foldRecord [50]).count : ℚ) ≤
        ((foldRecord [50]).max : ℚ) / 10) := by
  have h : foldRecord [50] = ⟨50, 50, 50, 1⟩ := by decide
  rw [h]
  norm_num

/-- C4 (amended): for every nonempty update sequence with values in the
documented scaled range and at most 214769 updates (so that the i32 sum
cannot wrap), min is at most max and sum/count lies in [min, max]
(equivalently, the mean of the unscaled values lies in [min/10, max/10]). -/
theorem record_mean_in_range (vs : List Int) (hne : vs ≠ [])
    (hrange : ∀ v ∈ vs, -9999 ≤ v ∧ v ≤ 9999) (hlen : vs.length ≤ 214769) :
    (foldRecord vs).min ≤ (foldRecord vs).max ∧ 0 < (foldRecord vs).count ∧
      ((foldRecord vs).min : ℚ) ≤ ((foldRecord vs).sum : ℚ) / ((foldRecord vs).count : ℚ) ∧
      ((foldRecord vs).sum : ℚ) / ((foldRecord vs).count : ℚ) ≤ ((foldRecord vs).max : ℚ) := by
  obtain ⟨h1, h2, h3, h4, h5⟩ := foldRecord_bounds vs hne hrange
  have hcount : (foldRecord vs).count = vs.length := by
    rw [foldRecord_count]
    exact Nat.mod_eq_of_lt (by omega)
  have hlenI : (vs.length : Int) ≤ 214769 := by exact_mod_cast hlen
  have hsumr : (foldRecord vs).sum = vs.sum := by
    rw [foldRecord_sum]
    obtain ⟨hb1, hb2⟩ := sum_range_bound vs hrange
    apply wrap32_id <;> linarith
  have hpos : 0 < vs.length := List.length_pos.mpr hne
  have hposQ : (0 : ℚ) < (vs.length : ℚ) := by exact_mod_cast hpos
  refine ⟨h2, by rw [hcount]; exact hpos, ?_, ?_⟩
  · rw [hcount, hsumr, le_div_iff₀ hposQ]
    exact_mod_cast h4
  · rw [hcount, hsumr, div_le_iff₀ hposQ]
    exact_mod_cast h5

/-- C4 witness: the update sequence 50, 30. -/
theorem record_mean_in_range_witness :
    (foldRecord [50, 30]).min ≤ (foldRecord [50, 30]).max ∧ 0 < (foldRecord [50, 30]).count ∧
      ((foldRecord [50, 30]).min : ℚ) ≤
        ((foldRecord [50, 30]).sum : ℚ) / ((foldRecord [50, 30]).count : ℚ) ∧
      ((foldRecord [50, 30]).sum : ℚ) / ((foldRecord [50, 30]).count : ℚ) ≤
        ((foldRecord [50, 30]).max : ℚ) :=
  record_mean_in_range [50, 30] (by decide) (by decide) (by decide)

theorem sum_replicate_int : ∀ (n : Nat) (v : Int), (List.replicate n v).sum = n * v := by
  intro n v
  induction n with
  | zero => simp
  | succ k ih =>
    rw [List.replicate_succ, List.sum_cons, ih]
    push_cast
    ring

/-- C5 counterexample: one billion records of scaled value 9999 (999.9, the
top of the documented range) silently wrap the i32 sum accumulator, so the
accumulated sum differs from the true sum. -/
theorem sum_overflow_cex :
    (List.replicate 1000000000 (9999 : Int)).length = 1000000000 ∧
      (foldRecord (List.replicate 1000000000 (9999 : Int))).sum ≠
        ((1000000000 : Nat) : Int) * 9999 := by
  constructor
  · exact List.length_replicate 1000000000 9999
  · rw [foldRecord_sum, sum_replicate_int]
    decide

/-- C5 (amended): the u32 count does not wrap for record counts up to
4294967295 (covering counts in the billions), but the i32 sum accumulator is
only guaranteed exact for counts up to 214769 when scaled values stay in the
documented range [-9999, 9999]. -/
theorem sum_count_no_wrap (vs : List Int) :
    (vs.length ≤ 4294967295 → (foldRecord vs).count = vs.length) ∧
      ((∀ v ∈ vs, -9999 ≤ v ∧ v ≤ 9999) → vs.length ≤ 214769 →
        (foldRecord vs).sum = vs.sum ∧ (foldRecord vs).count = vs.length) := by
  constructor
  · intro h
    rw [foldRecord_count]
    exact Nat.mod_eq_of_lt (by omega)
  · intro hrange hlen
    have hlenI : (vs.length : Int) ≤ 214769 := by exact_mod_cast hlen
    constructor
    · rw [foldRecord_sum]
      obtain ⟨hb1, hb2⟩ := sum_range_bound vs hrange
      apply wrap32_id <;> linarith
    · rw [foldRecord_count]
      exact Nat.mod_eq_of_lt (by omega)

/-- C5 witness: the two-record sequence 9999, -9999. -/
theorem sum_count_no_wrap_witness :
    (foldRecord [9999, -9999]).sum = ([9999, -9999] : List Int).sum ∧
      (foldRecord [9999, -9999]).count = ([9999, -9999] : List Int).length :=
  (sum_count_no_wrap [9999, -9999]).2 (by decide) (by decide)

/-- C6 counterexample: in the buffer abc, newline, x;1.0, newline the first
line (abc) has no field delimiter, yet read_mmap returns a summary instead
of failing: the missing delimiter is silently patched by the ';' of the next
line, merging abc and x into one key. -/
theorem missing_delim_cex :
    59 ∉ ([97, 98, 99] : List Nat) ∧
      read_mmap ([97, 98, 99] ++ 10 :: [120, 59, 49, 46, 48, 10]) ≠ none := by
  decide

/-- C6 (amended): read_mmap fails and produces no summary whenever the
buffer is nonempty and not newline-terminated (final line missing its line
delimiter), and whenever the buffer decomposes as u ++ t with t a nonempty
tail beginning at a line start (u empty or newline-terminated) that contains
no field delimiter at all; a line missing ';' whose delimiter is supplied by
a later line is instead silently merged into a longer key. -/
theorem malformed_tail_fails (b : List Nat) (hne : b ≠ []) :
    (b.getLast? ≠ some 10 → read_mmap b = none) ∧
      (∀ u t : List Nat, b = u ++ t → t ≠ [] → 59 ∉ t →
        (u = [] ∨ u.getLast? = some 10) → read_mmap b = none) := by
  constructor
  · intro hlast
    rw [read_mmap_scan]
    cases hs : scanLoop b.length b with
    | none => rfl
    | some ps =>
      exfalso
      rcases scan_success_last b.length b (le_refl _) (by rw [hs]; rfl) with h | h
      · exact hne h
      · exact hlast h
  · intro u t hb ht h59 hu
    rw [read_mmap_scan, hb, scanLoop_tail_none _ u t ht h59 hu]
    rfl

/-- C6 witness: the one-byte buffers a (unterminated line) and b (no field
delimiter anywhere). -/
theorem malformed_tail_fails_witness :
    (([97] : List Nat) ≠ [] ∧ read_mmap [97] = none) ∧
      (59 ∉ ([98] : List Nat) ∧ read_mmap [98] = none) := by
  refine ⟨⟨by decide, ?_⟩, by decide, ?_⟩
  · exact (malformed_tail_fails [97] (by decide)).1 (by decide)
  · exact (malformed_tail_fails [98] (by decide)).2 [] [98] rfl (by decide) (by decide) (Or.inl rfl)

/-- C7: on every well-formed input buffer, the sequence returned by
read_mmap has keys strictly increasing in byte-lexicographic order, and a
second run over the same buffer renders byte-identical formatted output. -/
theorem read_mmap_sorted (b : List Nat) (out : List (List Nat × CityDetails))
    (hw : wellFormed b) (h : read_mmap b = some out) :
    out.Pairwise (fun p q => lexLt p.1 q.1 = true) ∧
      (read_mmap b).map printOut = some (printOut out) := by
  constructor
  · rw [read_mmap_scan] at h
    cases hs : scanLoop b.length b with
    | none => rw [hs] at h; simp at h
    | some ps =>
      rw [hs] at h
      simp at h
      rw [← h]
      exact sortPairs_strict _ (aggregate_keys_nodup ps)
  · rw [h]
    rfl

/-- C7 witness: the one-line buffer a;1.0 newline. -/
theorem read_mmap_sorted_witness :
    wellFormed [97, 59, 49, 46, 48, 10] ∧
      read_mmap [97, 59, 49, 46, 48, 10] = some [([97], ⟨10, 10, 10, 1⟩)] ∧
      (List.Pairwise (fun p q => lexLt p.1 q.1 = true)
          [(([97] : List Nat), (⟨10, 10, 10, 1⟩ : CityDetails))] ∧
        (read_mmap [97, 59, 49, 46, 48, 10]).map printOut =
          some (printOut [([97], ⟨10, 10, 10, 1⟩)])) := by
  have hw : wellFormed [97, 59, 49, 46, 48, 10] :=
    ⟨[([97], [49, 46, 48])], by decide, by decide⟩
  have hr : read_mmap [97, 59, 49, 46, 48, 10] = some [([97], ⟨10, 10, 10, 1⟩)] := by decide
  exact ⟨hw, hr, read_mmap_sorted _ _ hw hr⟩

/-- C8: the rendered output is one block: an opening brace, the entries
(each key, '=', min/mean/max to one decimal place) joined by comma-and-space
with no trailing delimiter, and a closing brace; the empty buffer aggregates
to the empty sequence, which renders as exactly the two brace bytes. -/
theorem print_block_format :
    read_mmap [] = some [] ∧ printOut [] = [123, 125] ∧
      ∀ l : List (List Nat × CityDetails),
        printOut l = 123 :: (specSepConcat (l.map entryBytes) ++ [125]) := by
  refine ⟨rfl, rfl, ?_⟩
  intro l
  cases l with
  | nil => rfl
  | cons p rest =>
    rw [show printOut (p :: rest) = 123 :: ((entryBytes p ++
        rest.foldl (fun acc q => acc ++ 44 :: 32 :: entryBytes q) []) ++ [125]) from rfl]
    rw [foldl_sep, List.map_cons, specSepConcat_cons, List.map_map]
    simp [List.append_assoc, Function.comp_def]

/-- C9: aggregation is order independent: for every permutation of a record
sequence, the resulting table carries identical statistics per key (same
min, max, sum and count). -/
theorem aggregate_perm (l1 l2 : List (List Nat × Int)) (hp : l1.Perm l2) (k : List Nat) :
    lookupKey k (aggregate l1) = lookupKey k (aggregate l2) := by
  rw [lookup_aggregate, lookup_aggregate]
  exact foldl_obsOpt_perm (hp.filterMap _) none

/-- C9 witness: swapping two records of distinct keys. -/
theorem aggregate_perm_witness :
    ([([97], 1), ([98], 2)] : List (List Nat × Int)).Perm [([98], 2), ([97], 1)] ∧
      lookupKey [97] (aggregate [([97], 1), ([98], 2)]) =
        lookupKey [97] (aggregate [([98], 2), ([97], 1)]) := by
  have hp : ([([97], 1), ([98], 2)] : List (List Nat × Int)).Perm [([98], 2), ([97], 1)] :=
    List.Perm.swap _ _ _
  exact ⟨hp, aggregate_perm _ _ hp [97]⟩
